import Mathlib

/-!
Shallow embedding of the frame-reassembly and decryption engine of
`smart-meter-rs` (`src/lib.rs`).

The engine (`parse_next`) is generic over a data-link layer providing
`parse_frame` and `decrypt`; we embed it as a fueled state machine over the
byte buffer and the byte source, parameterised by those two functions.
One `stepIter` is exactly one iteration of the `'outer` loop of `parse_next`;
`run` iterates it; `parseNext` starts a call with the locals
`bytes_needed = 0`, `telegrams_needed = 1`, as the source does.
`obisNext` embeds `ObisIterator::next`.
-/

namespace SmartMeter

/-- A byte of the input stream (`u8` in the source), kept abstract as `Nat`. -/
abbrev Byte := Nat

/-- `ParseError` from `src/lib.rs`: the unified classification of a failed
frame parse. `incomplete` carries the optional `NonZeroUsize` hint as an
optional `Nat`. `invalidStart` and `other` are the two malformed classes. -/
inductive ParseError where
  | incomplete (hint : Option Nat)
  | invalidStart
  | other
deriving DecidableEq

/-- `dlms_cosem::Error` (`DlmsError` in `src/lib.rs`): the outcomes of
`decrypt`, exactly the four variants matched in `parse_next`. -/
inductive DlmsError where
  | incomplete (hint : Option Nat)
  | invalidFormat
  | checksumMismatch
  | decryptionFailed
deriving DecidableEq

/-- `Error` from `src/lib.rs`: the only user-visible error type, with the
`io::Error` payload abstracted away. -/
inductive Error where
  | ioError
  | decryptionFailed
deriving DecidableEq

/-- The byte source: a finite trace of read items; `some b` supplies the
byte `b`, `none` is an I/O error at that position, and the end of the list
is end-of-stream. -/
abbrev Reader := List (Option Byte)

/-- Model of `(reader).take(n).read_to_end(buffer)`: read at most `n` items,
stopping early at end of stream. Returns the bytes read (the caller appends
them to the buffer), the remaining reader, and whether an I/O error occurred;
bytes read before an error are still returned, as `read_to_end` appends them
before reporting the error. -/
def readTake : Nat → Reader → List Byte × Reader × Bool
  | 0, r => ([], r, false)
  | _ + 1, [] => ([], [], false)
  | _ + 1, none :: r => ([], r, true)
  | n + 1, some b :: r =>
    let p := readTake n r
    (b :: p.1, p.2.1, p.2.2)

/-- The state owned by a smart-meter iterator (`MBusSmartMeter` /
`HdlcSmartMeter`): the byte `buffer` and the reader. The locals
`bytes_needed` and `telegrams_needed` of `parse_next` are not part of this
state: they are reinitialised on every call. -/
structure MState where
  buffer : List Byte
  reader : Reader
deriving DecidableEq

/-- A frame parser (`SmartMeterDataLinkLayer::parse_frame`): on success it
returns the unconsumed remainder of the input together with the parsed
frame, as the `mbusparse`/`hdlcparse` parsers do. -/
abbrev FrameParser (F : Type) := List Byte → Except ParseError (List Byte × F)

/-- A decryption layer (`SmartMeterDataLinkLayer::decrypt`) over an ordered
frame set. -/
abbrev Decryptor (F A : Type) := List F → Except DlmsError A

/-- Outcome of the inner `for i in 0..telegrams_needed` loop of `parse_next`:
either all required frames parsed (with the accumulated telegrams,
`telegram_1_len` and `telegrams_len`), or the classification of the first
failing parse. -/
inductive FramesResult (F : Type) where
  | done (telegrams : List F) (telegram1Len telegramsLen : Nat)
  | incomplete (hint : Option Nat)
  | invalidStart
  | other
deriving DecidableEq

/-- The inner loop of `parse_next`: parse `n` frames sequentially from `buf`,
accumulating the telegrams, the byte length consumed by the first frame
(`telegram_1_len`, set only when `first` is true, i.e. `i == 0`) and the
total consumed byte length (`telegrams_len`). -/
def parseFrames (pf : FrameParser F) :
    Nat → List Byte → List F → Nat → Nat → Bool → FramesResult F
  | 0, _, telegrams, t1, tl, _ => .done telegrams t1 tl
  | n + 1, buf, telegrams, t1, tl, first =>
    match pf buf with
    | .ok (next, tg) =>
      let tgLen := buf.length - next.length
      parseFrames pf n next (telegrams ++ [tg])
        (if first then tgLen else t1) (tl + tgLen) false
    | .error (.incomplete h) => .incomplete h
    | .error .invalidStart => .invalidStart
    | .error .other => .other

/-- One observable outcome of a single iteration of the `'outer` loop:
either the loop continues with updated state and counters, or `parse_next`
returns (`emit`), or the iteration would panic (`buffer.remove(0)` on an
empty buffer). -/
inductive Step (A : Type) where
  | again (st : MState) (bytesNeeded telegramsNeeded : Nat)
  | emit (st : MState) (result : Except Error A)
  | panic

/-- The body of one `'outer` iteration after the read: run the frame loop
over the whole buffer; on `Incomplete` record the hint as the new
`bytes_needed`; on a malformed classification drop one byte from the front
of the buffer (`buffer.remove(0)`, a panic when the buffer is empty) and
reset `bytes_needed` to 0; once all frames are parsed, decrypt the frame
set (with `bytes_needed` already reset to 0, as on line 232 of the source):
on success drain `telegrams_len` bytes and return, on `Incomplete` increase
`telegrams_needed` by the hint, on `InvalidFormat`/`ChecksumMismatch` drain
`telegram_1_len` bytes and reset `telegrams_needed` to 1, on
`DecryptionFailed` return the error. -/
def stepCore (pf : FrameParser F) (dec : Decryptor F A)
    (buffer : List Byte) (r : Reader) (telegramsNeeded : Nat) : Step A :=
  match parseFrames pf telegramsNeeded buffer [] 0 0 true with
  | .incomplete h => .again ⟨buffer, r⟩ (h.getD 1) telegramsNeeded
  | .invalidStart =>
    match buffer with
    | [] => .panic
    | _ :: rest => .again ⟨rest, r⟩ 0 telegramsNeeded
  | .other =>
    match buffer with
    | [] => .panic
    | _ :: rest => .again ⟨rest, r⟩ 0 telegramsNeeded
  | .done telegrams t1 tl =>
    match dec telegrams with
    | .ok apdu => .emit ⟨buffer.drop tl, r⟩ (.ok apdu)
    | .error (.incomplete n) => .again ⟨buffer, r⟩ 0 (telegramsNeeded + n.getD 1)
    | .error .invalidFormat => .again ⟨buffer.drop t1, r⟩ 0 1
    | .error .checksumMismatch => .again ⟨buffer.drop t1, r⟩ 0 1
    | .error .decryptionFailed => .emit ⟨buffer, r⟩ (.error .decryptionFailed)

/-- One full iteration of the `'outer` loop of `parse_next`: read
`bytesNeeded` more bytes, appending them to the buffer; an I/O error is
surfaced immediately (with the bytes read before it still appended);
otherwise run the body of the iteration. -/
def stepIter (pf : FrameParser F) (dec : Decryptor F A)
    (st : MState) (bytesNeeded telegramsNeeded : Nat) : Step A :=
  let p := readTake bytesNeeded st.reader
  let buffer := st.buffer ++ p.1
  if p.2.2 then .emit ⟨buffer, p.2.1⟩ (.error .ioError)
  else stepCore pf dec buffer p.2.1 telegramsNeeded

/-- Result of running `parse_next` with bounded fuel: the function returned
(`emit`), the run would panic, or the fuel ran out mid-loop (the source's
loop is unbounded; fuel only truncates our observation of it). -/
inductive RunResult (A : Type) where
  | emit (st : MState) (result : Except Error A)
  | panicked
  | outOfFuel (st : MState) (bytesNeeded telegramsNeeded : Nat)

/-- The `'outer` loop of `parse_next`, iterated with explicit fuel. -/
def run (pf : FrameParser F) (dec : Decryptor F A) :
    Nat → MState → Nat → Nat → RunResult A
  | 0, st, bn, tn => .outOfFuel st bn tn
  | fuel + 1, st, bn, tn =>
    match stepIter pf dec st bn tn with
    | .again st2 bn2 tn2 => run pf dec fuel st2 bn2 tn2
    | .emit st2 res => .emit st2 res
    | .panic => .panicked

/-- `parse_next`: the locals `bytes_needed` and `telegrams_needed` are
initialised to `0` and `1` on every call. This is also the body of
`MBusSmartMeter::next` and `HdlcSmartMeter::next`, which delegate to
`parse_next` on their own buffer and reader. -/
def parseNext (pf : FrameParser F) (dec : Decryptor F A)
    (fuel : Nat) (st : MState) : RunResult A :=
  run pf dec fuel st 0 1

/-- Whether a bounded run produced an iterator item (`parse_next` returned). -/
def RunResult.isEmit : RunResult A → Bool
  | .emit _ _ => true
  | _ => false

/-- `ObisMap::parse` abstracted: decode a decrypted message into a register
map, `none` on a decode failure. -/
abbrev ObisDecoder (A M : Type) := A → Option M

/-- `ObisIterator::next`, over the trace of items produced by the underlying
iterator: loop over the underlying items, propagating any error unchanged,
yielding the first decodable message, skipping undecodable ones, and
returning `none` only once the underlying iterator is exhausted. -/
def obisNext (p : ObisDecoder A M) :
    List (Except Error A) → Option (Except Error M × List (Except Error A))
  | [] => none
  | .error e :: rest => some (.error e, rest)
  | .ok a :: rest =>
    match p a with
    | some m => some (.ok m, rest)
    | none => obisNext p rest

/-- The per-frame consumed byte lengths of a successful parse of `n`
consecutive frames from `buf`: each entry is the number of input bytes that
frame's parse consumed. -/
def frameLens (pf : FrameParser F) : Nat → List Byte → Option (List Nat)
  | 0, _ => some []
  | n + 1, buf =>
    match pf buf with
    | .ok (next, _) => (frameLens pf n next).map fun ls => (buf.length - next.length) :: ls
    | .error _ => none

/-- Concrete frame parser for witnesses: a frame is exactly two bytes. -/
def pf2 : FrameParser Nat := fun buf =>
  match buf with
  | a :: b :: rest => .ok (rest, a * 256 + b)
  | _ => .error (.incomplete (some 1))

/-- Concrete frame parser for witnesses: a frame is a single byte. -/
def pf1 : FrameParser Nat := fun buf =>
  match buf with
  | b :: rest => .ok (rest, b)
  | [] => .error (.incomplete none)

/-- Concrete frame parser for witnesses: every input is a bad start marker. -/
def pfBad : FrameParser Nat := fun _ => .error .invalidStart

/-- Concrete decryptor for witnesses: always succeeds. -/
def decOk : Decryptor Nat Nat := fun fs => .ok fs.sum

/-- Concrete decryptor for witnesses: always a soft format failure. -/
def decSoft : Decryptor Nat Nat := fun _ => .error .invalidFormat

/-- Concrete decryptor for witnesses: always a hard failure. -/
def decHard : Decryptor Nat Nat := fun _ => .error .decryptionFailed

/-- Concrete decryptor for witnesses: needs two frames, then succeeds. -/
def decNeed2 : Decryptor Nat Nat := fun fs =>
  if fs.length < 2 then .error (.incomplete none) else .ok fs.sum

/-- A frame parser is well formed when the remainder it returns is no longer
than its input; every Rust implementation satisfies this, since the
remainder is a subslice of the input. -/
def ParserWf (pf : FrameParser F) : Prop :=
  ∀ b next f, pf b = .ok (next, f) → next.length ≤ b.length

/-- `pf2` is well formed. -/
theorem pf2_wf : ParserWf pf2 := by
  intro b next f h
  match b with
  | [] => simp [pf2] at h
  | [a] => simp [pf2] at h
  | a :: c :: rest =>
    simp [pf2] at h
    obtain ⟨h1, _⟩ := h
    simp [← h1]
    omega

/-- `pf1` is well formed. -/
theorem pf1_wf : ParserWf pf1 := by
  intro b next f h
  match b with
  | [] => simp [pf1] at h
  | a :: rest =>
    simp [pf1] at h
    obtain ⟨h1, _⟩ := h
    simp [← h1]

/-- Reading zero bytes returns immediately without touching the reader. -/
theorem readTake_zero (r : Reader) : readTake 0 r = ([], r, false) := rfl

/-- When the reader starts with at least `bs.length` good bytes, reading
exactly `bs.length` bytes yields precisely those bytes and no error. -/
theorem readTake_exact (bs : List Byte) (rest : Reader) :
    readTake bs.length (bs.map some ++ rest) = (bs, rest, false) := by
  induction bs with
  | nil => rfl
  | cons b bs ih => simp [readTake, ih]

/-- Once `first` is false, the inner frame loop never changes
`telegram_1_len`. -/
theorem parseFrames_done_t1_false (pf : FrameParser F) :
    ∀ (n : Nat) (buf : List Byte) (tgs : List F) (t1 tl : Nat)
      (tgs2 : List F) (t1b tlb : Nat),
      parseFrames pf n buf tgs t1 tl false = .done tgs2 t1b tlb → t1b = t1 := by
  intro n
  induction n with
  | zero =>
    intro buf tgs t1 tl tgs2 t1b tlb h
    simp [parseFrames] at h
    exact h.2.1.symm
  | succ n ih =>
    intro buf tgs t1 tl tgs2 t1b tlb h
    cases hpf : pf buf with
    | ok p =>
      obtain ⟨next, tg⟩ := p
      simp [parseFrames, hpf] at h
      exact ih next _ _ _ _ _ _ h
    | error e =>
      cases e <;> simp [parseFrames, hpf] at h

/-- In a run of the inner frame loop started at `i = 0` that parses at least
one frame, `telegram_1_len` is the byte length consumed by the first frame. -/
theorem parseFrames_done_t1_true (pf : FrameParser F)
    (n : Nat) (buf : List Byte) (tgs : List F) (t1 tl : Nat)
    (tgs2 : List F) (t1b tlb : Nat)
    (h : parseFrames pf (n + 1) buf tgs t1 tl true = .done tgs2 t1b tlb) :
    ∃ next f, pf buf = .ok (next, f) ∧ t1b = buf.length - next.length := by
  cases hpf : pf buf with
  | ok p =>
    obtain ⟨next, f⟩ := p
    refine ⟨next, f, rfl, ?_⟩
    simp [parseFrames, hpf] at h
    exact parseFrames_done_t1_false pf n next _ _ _ _ _ _ h
  | error e =>
    cases e <;> simp [parseFrames, hpf] at h

/-- When the inner frame loop completes, the per-frame consumed lengths are
defined and `telegrams_len` grows by exactly their sum. -/
theorem parseFrames_done_lens (pf : FrameParser F) :
    ∀ (n : Nat) (buf : List Byte) (tgs : List F) (t1 tl : Nat) (first : Bool)
      (tgs2 : List F) (t1b tlb : Nat),
      parseFrames pf n buf tgs t1 tl first = .done tgs2 t1b tlb →
      ∃ ls, frameLens pf n buf = some ls ∧ tlb = tl + ls.sum := by
  intro n
  induction n with
  | zero =>
    intro buf tgs t1 tl first tgs2 t1b tlb h
    simp [parseFrames] at h
    exact ⟨[], rfl, by simp [h.2.2]⟩
  | succ n ih =>
    intro buf tgs t1 tl first tgs2 t1b tlb h
    cases hpf : pf buf with
    | ok p =>
      obtain ⟨next, tg⟩ := p
      simp [parseFrames, hpf] at h
      obtain ⟨ls, hfl, hsum⟩ := ih next _ _ _ _ _ _ _ h
      refine ⟨(buf.length - next.length) :: ls, ?_, ?_⟩
      · simp [frameLens, hpf, hfl]
      · simp [hsum]
        omega
    | error e =>
      cases e <;> simp [parseFrames, hpf] at h

/-- For a well-formed parser, the sum of the consumed per-frame lengths never
exceeds the length of the input they were parsed from. -/
theorem frameLens_sum_le (pf : FrameParser F) (hwf : ParserWf pf) :
    ∀ (n : Nat) (buf : List Byte) (ls : List Nat),
      frameLens pf n buf = some ls → ls.sum ≤ buf.length := by
  intro n
  induction n with
  | zero =>
    intro buf ls h
    cases ls with
    | nil => simp
    | cons a ls => simp [frameLens] at h
  | succ n ih =>
    intro buf ls h
    cases hpf : pf buf with
    | ok p =>
      obtain ⟨next, tg⟩ := p
      simp [frameLens, hpf] at h
      obtain ⟨ls2, hfl, hcons⟩ := h
      have hle := ih next ls2 hfl
      have hnb := hwf buf next tg hpf
      simp [← hcons]
      omega
    | error e =>
      simp [frameLens, hpf] at h

/-- A malformed classification of the inner frame loop originates from the
parser rejecting some suffix view no longer than the loop's input. -/
theorem parseFrames_malformed (pf : FrameParser F) (hwf : ParserWf pf) :
    ∀ (n : Nat) (buf : List Byte) (tgs : List F) (t1 tl : Nat) (first : Bool),
      (parseFrames pf n buf tgs t1 tl first = .invalidStart ∨
       parseFrames pf n buf tgs t1 tl first = .other) →
      ∃ b2 : List Byte, b2.length ≤ buf.length ∧
        (pf b2 = .error .invalidStart ∨ pf b2 = .error .other) := by
  intro n
  induction n with
  | zero =>
    intro buf tgs t1 tl first h
    simp [parseFrames] at h
  | succ n ih =>
    intro buf tgs t1 tl first h
    cases hpf : pf buf with
    | ok p =>
      obtain ⟨next, tg⟩ := p
      simp only [parseFrames, hpf] at h
      obtain ⟨b2, hlen, hb2⟩ := ih next _ _ _ _ h
      exact ⟨b2, le_trans hlen (hwf buf next tg hpf), hb2⟩
    | error e =>
      cases e with
      | incomplete hint => simp [parseFrames, hpf] at h
      | invalidStart => exact ⟨buf, le_refl _, Or.inl hpf⟩
      | other => exact ⟨buf, le_refl _, Or.inr hpf⟩

/-- Unfolding one `'outer` iteration along a known result of the read. -/
theorem stepIter_eq (pf : FrameParser F) (dec : Decryptor F A)
    (st : MState) (bn tn : Nat) (bs : List Byte) (r2 : Reader) (e : Bool)
    (hr : readTake bn st.reader = (bs, r2, e)) :
    stepIter pf dec st bn tn =
      if e then .emit ⟨st.buffer ++ bs, r2⟩ (.error .ioError)
      else stepCore pf dec (st.buffer ++ bs) r2 tn := by
  simp [stepIter, hr]

/-- The iteration body on an `Incomplete` frame classification. -/
theorem stepCore_incomplete (pf : FrameParser F) (dec : Decryptor F A)
    (B : List Byte) (r : Reader) (tn : Nat) (h : Option Nat)
    (hp : parseFrames pf tn B [] 0 0 true = .incomplete h) :
    stepCore pf dec B r tn = .again ⟨B, r⟩ (h.getD 1) tn := by
  simp [stepCore, hp]

/-- The iteration body on a malformed frame classification over a non-empty
buffer. -/
theorem stepCore_malformed (pf : FrameParser F) (dec : Decryptor F A)
    (b : Byte) (rest : List Byte) (r : Reader) (tn : Nat)
    (hp : parseFrames pf tn (b :: rest) [] 0 0 true = .invalidStart ∨
          parseFrames pf tn (b :: rest) [] 0 0 true = .other) :
    stepCore pf dec (b :: rest) r tn = .again ⟨rest, r⟩ 0 tn := by
  cases hp with
  | inl hp => simp [stepCore, hp]
  | inr hp => simp [stepCore, hp]

/-- The iteration body on decryption success. -/
theorem stepCore_decrypt_ok (pf : FrameParser F) (dec : Decryptor F A)
    (B : List Byte) (r : Reader) (tn : Nat)
    (tgs : List F) (t1 tl : Nat) (a : A)
    (hp : parseFrames pf tn B [] 0 0 true = .done tgs t1 tl)
    (hd : dec tgs = .ok a) :
    stepCore pf dec B r tn = .emit ⟨B.drop tl, r⟩ (.ok a) := by
  simp [stepCore, hp, hd]

/-- The iteration body when decryption needs more frames. -/
theorem stepCore_decrypt_incomplete (pf : FrameParser F) (dec : Decryptor F A)
    (B : List Byte) (r : Reader) (tn : Nat)
    (tgs : List F) (t1 tl : Nat) (h : Option Nat)
    (hp : parseFrames pf tn B [] 0 0 true = .done tgs t1 tl)
    (hd : dec tgs = .error (.incomplete h)) :
    stepCore pf dec B r tn = .again ⟨B, r⟩ 0 (tn + h.getD 1) := by
  simp [stepCore, hp, hd]

/-- The iteration body on a soft decryption failure. -/
theorem stepCore_decrypt_soft (pf : FrameParser F) (dec : Decryptor F A)
    (B : List Byte) (r : Reader) (tn : Nat)
    (tgs : List F) (t1 tl : Nat)
    (hp : parseFrames pf tn B [] 0 0 true = .done tgs t1 tl)
    (hd : dec tgs = .error .invalidFormat ∨ dec tgs = .error .checksumMismatch) :
    stepCore pf dec B r tn = .again ⟨B.drop t1, r⟩ 0 1 := by
  cases hd with
  | inl hd => simp [stepCore, hp, hd]
  | inr hd => simp [stepCore, hp, hd]

/-- The iteration body on a hard decryption failure. -/
theorem stepCore_decrypt_hard (pf : FrameParser F) (dec : Decryptor F A)
    (B : List Byte) (r : Reader) (tn : Nat)
    (tgs : List F) (t1 tl : Nat)
    (hp : parseFrames pf tn B [] 0 0 true = .done tgs t1 tl)
    (hd : dec tgs = .error .decryptionFailed) :
    stepCore pf dec B r tn = .emit ⟨B, r⟩ (.error .decryptionFailed) := by
  simp [stepCore, hp, hd]

/-- Claim C2: in every iteration of the `'outer` loop of `parse_next` in
which the frame parse is classified malformed (`InvalidStart` or `Other`, as
distinct from `Incomplete`), exactly one byte is removed from the front of
the buffer and `bytes_needed` is reset to 0 before the next parse attempt,
so the buffer length strictly decreases by exactly 1 per malformed
classification and resync makes forward progress. -/
theorem c2_malformed_resync (pf : FrameParser F) (dec : Decryptor F A)
    (st : MState) (bn tn : Nat) (bs : List Byte) (r2 : Reader)
    (b : Byte) (rest : List Byte)
    (hr : readTake bn st.reader = (bs, r2, false))
    (hB : st.buffer ++ bs = b :: rest)
    (hp : parseFrames pf tn (b :: rest) [] 0 0 true = .invalidStart ∨
          parseFrames pf tn (b :: rest) [] 0 0 true = .other) :
    stepIter pf dec st bn tn = .again ⟨rest, r2⟩ 0 tn ∧
    rest.length + 1 = (b :: rest).length := by
  refine ⟨?_, by simp⟩
  rw [stepIter_eq pf dec st bn tn bs r2 false hr]
  simp only [Bool.false_eq_true, if_false, hB]
  exact stepCore_malformed pf dec b rest r2 tn hp

/-- Witness for C2: one garbage byte, a parser that rejects it as a bad
start marker; the byte is dropped and the loop continues. -/
theorem c2_witness :
    stepIter pfBad decHard ⟨[7], []⟩ 0 1 = .again ⟨[], []⟩ 0 1 ∧
    List.length ([] : List Byte) + 1 = List.length ([7] : List Byte) :=
  c2_malformed_resync pfBad decHard ⟨[7], []⟩ 0 1 [] [] 7 [] rfl rfl
    (Or.inl rfl)

/-- Claim C3: on decryption success, `parse_next` drains from the front of
the buffer exactly the sum of the byte lengths of all frames in the
successful frame set (each frame's length being the number of input bytes
that frame's parse consumed) — no more, no less — returns the decrypted
message, and the cursor state is `(bytes_needed, frames_needed) = (0, 1)`
again for the next pull, since both are locals reinitialised on every call. -/
theorem c3_success_drain (pf : FrameParser F) (dec : Decryptor F A)
    (hwf : ParserWf pf)
    (st : MState) (bn tn : Nat) (bs : List Byte) (r2 : Reader)
    (tgs : List F) (t1 tl : Nat) (a : A)
    (hr : readTake bn st.reader = (bs, r2, false))
    (hp : parseFrames pf tn (st.buffer ++ bs) [] 0 0 true = .done tgs t1 tl)
    (hd : dec tgs = .ok a) :
    stepIter pf dec st bn tn = .emit ⟨(st.buffer ++ bs).drop tl, r2⟩ (.ok a) ∧
    (∃ ls, frameLens pf tn (st.buffer ++ bs) = some ls ∧ tl = ls.sum) ∧
    (st.buffer ++ bs).length - ((st.buffer ++ bs).drop tl).length = tl ∧
    (∀ (fuel : Nat) (s : MState),
      parseNext pf dec fuel s = run pf dec fuel s 0 1) := by
  obtain ⟨ls, hfl, hsum⟩ := parseFrames_done_lens pf tn _ _ _ _ _ _ _ _ hp
  have hle : tl ≤ (st.buffer ++ bs).length := by
    have := frameLens_sum_le pf hwf tn _ ls hfl
    omega
  refine ⟨?_, ⟨ls, hfl, by omega⟩, ?_, fun fuel s => rfl⟩
  · rw [stepIter_eq pf dec st bn tn bs r2 false hr]
    simp only [Bool.false_eq_true, if_false]
    exact stepCore_decrypt_ok pf dec _ r2 tn tgs t1 tl a hp hd
  · simp only [List.length_drop]
    omega

/-- Witness for C3: one two-byte frame, decryption succeeds; exactly those
two bytes are drained and the message is returned. -/
theorem c3_witness :
    stepIter pf2 decOk ⟨[1, 2], []⟩ 0 1 = .emit ⟨[], []⟩ (.ok 258) ∧
    (∃ ls, frameLens pf2 1 [1, 2] = some ls ∧ 2 = ls.sum) ∧
    List.length ([1, 2] : List Byte) -
      List.length (([1, 2] : List Byte).drop 2) = 2 := by
  have h := c3_success_drain pf2 decOk pf2_wf ⟨[1, 2], []⟩ 0 1 [] [] [258] 2 2
    258 rfl rfl rfl
  exact ⟨h.1, h.2.1, h.2.2.1⟩

/-- Claim C4: on a soft decryption failure (`DlmsError::InvalidFormat` or
`ChecksumMismatch`, as opposed to a hard key/authentication failure),
`parse_next` removes exactly the first frame's byte length from the front of
the buffer, resets `frames_needed` to 1, and restarts the attempt without
surfacing any error to the caller. -/
theorem c4_soft_failure_drain (pf : FrameParser F) (dec : Decryptor F A)
    (hwf : ParserWf pf)
    (st : MState) (bn tn : Nat) (bs : List Byte) (r2 : Reader)
    (tgs : List F) (t1 tl : Nat)
    (hr : readTake bn st.reader = (bs, r2, false))
    (hp : parseFrames pf (tn + 1) (st.buffer ++ bs) [] 0 0 true = .done tgs t1 tl)
    (hd : dec tgs = .error .invalidFormat ∨ dec tgs = .error .checksumMismatch) :
    stepIter pf dec st bn (tn + 1) = .again ⟨(st.buffer ++ bs).drop t1, r2⟩ 0 1 ∧
    (∃ next f, pf (st.buffer ++ bs) = .ok (next, f) ∧
      t1 = (st.buffer ++ bs).length - next.length) ∧
    (st.buffer ++ bs).length - ((st.buffer ++ bs).drop t1).length = t1 := by
  obtain ⟨next, f, hpf, ht1⟩ :=
    parseFrames_done_t1_true pf tn _ _ _ _ _ _ _ hp
  have hnb : next.length ≤ (st.buffer ++ bs).length := hwf _ next f hpf
  refine ⟨?_, ⟨next, f, hpf, ht1⟩, ?_⟩
  · rw [stepIter_eq pf dec st bn (tn + 1) bs r2 false hr]
    simp only [Bool.false_eq_true, if_false]
    exact stepCore_decrypt_soft pf dec _ r2 (tn + 1) tgs t1 tl hp hd
  · simp only [List.length_drop]
    omega

/-- Witness for C4: a two-byte frame followed by one extra byte, soft
decryption failure; exactly the first frame's two bytes are drained. -/
theorem c4_witness :
    stepIter pf2 decSoft ⟨[1, 2, 9], []⟩ 0 1 = .again ⟨[9], []⟩ 0 1 ∧
    (∃ next f, pf2 [1, 2, 9] = .ok (next, f) ∧
      2 = List.length ([1, 2, 9] : List Byte) - next.length) ∧
    List.length ([1, 2, 9] : List Byte) -
      List.length (([1, 2, 9] : List Byte).drop 2) = 2 :=
  c4_soft_failure_drain pf2 decSoft pf2_wf ⟨[1, 2, 9], []⟩ 0 0 [] []
    [258] 2 2 rfl rfl (Or.inl rfl)

/-- Claim C5: when the decryption layer reports it needs more frames,
`parse_next` increments `frames_needed` by the hint (by 1 when the hint is
absent), leaves the buffer untouched, and restarts the attempt reparsing
from the front of the buffer; consequently a decryption layer that needs one
more frame after frame 1 and succeeds after frame 2 causes exactly one
emitted message whose drained byte count spans both frames. -/
theorem c5_needs_more_accumulation (pf : FrameParser F) (dec : Decryptor F A)
    (B : List Byte) (r : Reader) (rem1 rem2 : List Byte) (f1 f2 : F)
    (h : Option Nat) (a : A)
    (hp1 : pf B = .ok (rem1, f1))
    (hp2 : pf rem1 = .ok (rem2, f2))
    (hd1 : dec [f1] = .error (.incomplete h))
    (hh : h.getD 1 = 1)
    (hd2 : dec [f1, f2] = .ok a) :
    (∀ (st : MState) (bn tn : Nat) (bs : List Byte) (r2 : Reader)
       (tgs : List F) (t1 tl : Nat) (h2 : Option Nat),
      readTake bn st.reader = (bs, r2, false) →
      parseFrames pf tn (st.buffer ++ bs) [] 0 0 true = .done tgs t1 tl →
      dec tgs = .error (.incomplete h2) →
      stepIter pf dec st bn tn =
        .again ⟨st.buffer ++ bs, r2⟩ 0 (tn + h2.getD 1)) ∧
    run pf dec 2 ⟨B, r⟩ 0 1 =
      .emit ⟨B.drop ((B.length - rem1.length) + (rem1.length - rem2.length)), r⟩
        (.ok a) := by
  have hpf1 : parseFrames pf 1 B [] 0 0 true =
      .done [f1] (B.length - rem1.length) (B.length - rem1.length) := by
    simp [parseFrames, hp1]
  have hpf2 : parseFrames pf 2 B [] 0 0 true =
      .done [f1, f2] (B.length - rem1.length)
        ((B.length - rem1.length) + (rem1.length - rem2.length)) := by
    simp [parseFrames, hp1, hp2]
  constructor
  · intro st bn tn bs r2 tgs t1 tl h2 hr hp hd
    rw [stepIter_eq pf dec st bn tn bs r2 false hr]
    simp only [Bool.false_eq_true, if_false]
    exact stepCore_decrypt_incomplete pf dec _ r2 tn tgs t1 tl h2 hp hd
  · have s1 : stepIter pf dec ⟨B, r⟩ 0 1 = .again ⟨B, r⟩ 0 2 := by
      rw [stepIter_eq pf dec ⟨B, r⟩ 0 1 [] r false rfl]
      simp only [Bool.false_eq_true, if_false, List.append_nil]
      rw [stepCore_decrypt_incomplete pf dec B r 1 [f1] _ _ h hpf1 hd1]
      simp [hh]
    have s2 : stepIter pf dec ⟨B, r⟩ 0 2 =
        .emit ⟨B.drop ((B.length - rem1.length) + (rem1.length - rem2.length)), r⟩
          (.ok a) := by
      rw [stepIter_eq pf dec ⟨B, r⟩ 0 2 [] r false rfl]
      simp only [Bool.false_eq_true, if_false, List.append_nil]
      exact stepCore_decrypt_ok pf dec B r 2 [f1, f2] _ _ a hpf2 hd2
    simp [run, s1, s2]

/-- Witness for C5: two two-byte frames; the decryptor asks for one more
frame after the first, then succeeds; one message is emitted and all four
bytes are drained. -/
theorem c5_witness :
    run pf2 decNeed2 2 ⟨[1, 2, 3, 4], []⟩ 0 1 = .emit ⟨[], []⟩ (.ok 1030) :=
  (c5_needs_more_accumulation pf2 decNeed2 [1, 2, 3, 4] [] [3, 4] [] 258 772
    none 1030 rfl rfl rfl rfl rfl).2

/-- Claim C6: when a frame parse returns `Incomplete(hint)`, the iteration
discards any frames already parsed in that attempt (the restarted attempt
reparses from scratch), consumes no bytes from the buffer, and sets
`bytes_needed` to the hint (1 when the hint is unspecified); the restarted
attempt then reads exactly `bytes_needed` additional bytes from the byte
source when they are available, appends them to the buffer, and reparses. -/
theorem c6_incomplete_read (pf : FrameParser F) (dec : Decryptor F A)
    (st : MState) (bn tn : Nat) (bs : List Byte) (r2 : Reader) (h : Option Nat)
    (hr : readTake bn st.reader = (bs, r2, false))
    (hp : parseFrames pf tn (st.buffer ++ bs) [] 0 0 true = .incomplete h) :
    stepIter pf dec st bn tn = .again ⟨st.buffer ++ bs, r2⟩ (h.getD 1) tn ∧
    (∀ (bs2 : List Byte) (rest : Reader), bs2.length = h.getD 1 →
      readTake (h.getD 1) (bs2.map some ++ rest) = (bs2, rest, false)) ∧
    (∀ (bs2 : List Byte) (rest : Reader), bs2.length = h.getD 1 →
      stepIter pf dec ⟨st.buffer ++ bs, bs2.map some ++ rest⟩ (h.getD 1) tn =
        stepCore pf dec ((st.buffer ++ bs) ++ bs2) rest tn) := by
  refine ⟨?_, ?_, ?_⟩
  · rw [stepIter_eq pf dec st bn tn bs r2 false hr]
    simp only [Bool.false_eq_true, if_false]
    exact stepCore_incomplete pf dec _ r2 tn h hp
  · intro bs2 rest hlen
    rw [← hlen]
    exact readTake_exact bs2 rest
  · intro bs2 rest hlen
    have hr2 : readTake (h.getD 1) (bs2.map some ++ rest) =
        (bs2, rest, false) := by
      rw [← hlen]
      exact readTake_exact bs2 rest
    rw [stepIter_eq pf dec ⟨st.buffer ++ bs, bs2.map some ++ rest⟩
      (h.getD 1) tn bs2 rest false hr2]
    simp

/-- Witness for C6: a truncated two-byte frame; the parser asks for one more
byte, the next iteration reads exactly that byte and reparses the completed
buffer. -/
theorem c6_witness :
    stepIter pf2 decOk ⟨[1], []⟩ 0 1 = .again ⟨[1], []⟩ 1 1 ∧
    readTake 1 [some 2] = ([2], [], false) ∧
    stepIter pf2 decOk ⟨[1], [some 2]⟩ 1 1 = stepCore pf2 decOk [1, 2] [] 1 := by
  have h := c6_incomplete_read pf2 decOk ⟨[1], []⟩ 0 1 [] [] (some 1) rfl rfl
  exact ⟨h.1, h.2.1 [2] [] rfl, h.2.2 [2] [] rfl⟩

/-- Claim C7: the only error values `parse_next` can ever return to the
caller are an I/O failure (surfaced immediately, without internal retry) and
a hard decryption failure; `Incomplete`, malformed and soft-failure outcomes
are never surfaced — every emitted error of a loop iteration comes either
from the read failing or from the decryptor returning `DecryptionFailed` on
a fully parsed frame set. -/
theorem c7_error_surface (pf : FrameParser F) (dec : Decryptor F A) :
    (∀ (st : MState) (bn tn : Nat) (bs : List Byte) (r2 : Reader),
      readTake bn st.reader = (bs, r2, true) →
      stepIter pf dec st bn tn =
        .emit ⟨st.buffer ++ bs, r2⟩ (.error .ioError)) ∧
    (∀ (st : MState) (bn tn : Nat) (st2 : MState) (e : Error),
      stepIter pf dec st bn tn = .emit st2 (.error e) →
      (e = .ioError ∧ (readTake bn st.reader).2.2 = true) ∨
      (e = .decryptionFailed ∧
        ∃ tgs t1 tl,
          parseFrames pf tn (st.buffer ++ (readTake bn st.reader).1)
            [] 0 0 true = .done tgs t1 tl ∧
          dec tgs = .error .decryptionFailed)) ∧
    (∀ (fuel : Nat) (st st2 : MState) (e : Error),
      parseNext pf dec fuel st = .emit st2 (.error e) →
      e = .ioError ∨ e = .decryptionFailed) := by
  refine ⟨?_, ?_, ?_⟩
  · intro st bn tn bs r2 hr
    rw [stepIter_eq pf dec st bn tn bs r2 true hr]
    simp
  · intro st bn tn st2 e hstep
    rcases hrt : readTake bn st.reader with ⟨bs, p⟩
    rcases p with ⟨r2, ioErr⟩
    rw [stepIter_eq pf dec st bn tn bs r2 ioErr hrt] at hstep
    cases ioErr with
    | true =>
      simp only [if_true] at hstep
      injection hstep with hA hB
      injection hB with hC
      exact Or.inl ⟨hC.symm, rfl⟩
    | false =>
      simp only [Bool.false_eq_true, if_false] at hstep
      cases hres : parseFrames pf tn (st.buffer ++ bs) [] 0 0 true with
      | incomplete hh =>
        rw [stepCore_incomplete pf dec _ r2 tn hh hres] at hstep
        simp at hstep
      | invalidStart =>
        cases hBB : st.buffer ++ bs with
        | nil =>
          rw [hBB] at hres hstep
          simp [stepCore, hres] at hstep
        | cons b rest =>
          rw [hBB] at hres hstep
          rw [stepCore_malformed pf dec b rest r2 tn (Or.inl hres)] at hstep
          simp at hstep
      | other =>
        cases hBB : st.buffer ++ bs with
        | nil =>
          rw [hBB] at hres hstep
          simp [stepCore, hres] at hstep
        | cons b rest =>
          rw [hBB] at hres hstep
          rw [stepCore_malformed pf dec b rest r2 tn (Or.inr hres)] at hstep
          simp at hstep
      | done tgs t1 tl =>
        cases hdec : dec tgs with
        | ok a =>
          rw [stepCore_decrypt_ok pf dec _ r2 tn tgs t1 tl a hres hdec] at hstep
          simp at hstep
        | error derr =>
          cases derr with
          | incomplete hh =>
            rw [stepCore_decrypt_incomplete pf dec _ r2 tn tgs t1 tl hh
              hres hdec] at hstep
            simp at hstep
          | invalidFormat =>
            rw [stepCore_decrypt_soft pf dec _ r2 tn tgs t1 tl hres
              (Or.inl hdec)] at hstep
            simp at hstep
          | checksumMismatch =>
            rw [stepCore_decrypt_soft pf dec _ r2 tn tgs t1 tl hres
              (Or.inr hdec)] at hstep
            simp at hstep
          | decryptionFailed =>
            rw [stepCore_decrypt_hard pf dec _ r2 tn tgs t1 tl hres hdec] at hstep
            injection hstep with hA hB
            injection hB with hC
            exact Or.inr ⟨hC.symm, tgs, t1, tl, rfl, hdec⟩
  · intro fuel st st2 e _
    cases e with
    | ioError => exact Or.inl rfl
    | decryptionFailed => exact Or.inr rfl

/-- Witness for C7: a reader that fails immediately; the I/O error is
surfaced at once. -/
theorem c7_witness :
    stepIter pf2 decOk ⟨[], [none]⟩ 1 1 = .emit ⟨[], []⟩ (.error .ioError) := by
  have h := c7_error_surface pf2 decOk
  exact h.1 ⟨[], [none]⟩ 1 1 [] [] rfl

/-- Claim C8: `ObisIterator::next` propagates every error from the
underlying engine unchanged as an error item; when the engine yields a
message but the payload decoder fails on it, the failure is swallowed and
the iterator pulls the next message instead of surfacing an error, so a
single corrupt-but-decryptable message never fails or stalls the sequence;
a decodable message is yielded; and it returns `none` only when the
underlying iterator is exhausted, every remaining item having been a
message the decoder rejected. -/
theorem c8_obis_iterator (p : ObisDecoder A M) :
    (∀ (e : Error) (rest : List (Except Error A)),
      obisNext p (.error e :: rest) = some (.error e, rest)) ∧
    (∀ (a : A) (rest : List (Except Error A)), p a = none →
      obisNext p (.ok a :: rest) = obisNext p rest) ∧
    (∀ (a : A) (m : M) (rest : List (Except Error A)), p a = some m →
      obisNext p (.ok a :: rest) = some (.ok m, rest)) ∧
    (∀ (l : List (Except Error A)), obisNext p l = none →
      ∀ x ∈ l, ∃ a, x = .ok a ∧ p a = none) := by
  refine ⟨fun e rest => rfl, ?_, ?_, ?_⟩
  · intro a rest hp
    simp [obisNext, hp]
  · intro a m rest hp
    simp [obisNext, hp]
  · intro l
    induction l with
    | nil =>
      intro _ x hx
      simp at hx
    | cons y rest ih =>
      intro hnone x hx
      cases y with
      | error e => simp [obisNext] at hnone
      | ok a =>
        cases hp : p a with
        | some m => simp [obisNext, hp] at hnone
        | none =>
          simp only [obisNext, hp] at hnone
          rcases List.mem_cons.mp hx with hx | hx
          · exact ⟨a, hx, hp⟩
          · exact ih hnone x hx

/-- Witness for C8: an undecodable message is skipped and the following
engine error is propagated unchanged. -/
theorem c8_witness :
    obisNext (fun n : Nat => if n = 0 then none else some n)
      [.ok 0, .error Error.ioError, .ok 5] =
      some (.error Error.ioError, [.ok 5]) := by
  have h := c8_obis_iterator (fun n : Nat => if n = 0 then none else some n)
  rw [h.2.1 0 [.error Error.ioError, .ok 5] (by simp)]
  exact h.1 Error.ioError [.ok 5]

/-- Claim C9: the single-byte resync (`buffer.remove(0)` in the
`InvalidStart` and `Other` branches) is in bounds only when the buffer is
non-empty: if the parser classifies the empty slice as malformed, the
execution from an empty buffer and empty reader panics, so absence of
panics requires that the parser never classify the empty slice as
`InvalidStart` or `Other`; and under that precondition (for a well-formed
parser) the panic branch is unreachable in every iteration. -/
theorem c9_remove_safety (pf : FrameParser F) (dec : Decryptor F A) :
    ((pf [] = .error .invalidStart ∨ pf [] = .error .other) →
      stepIter pf dec ⟨[], []⟩ 0 1 = .panic) ∧
    (ParserWf pf →
      pf [] ≠ .error .invalidStart →
      pf [] ≠ .error .other →
      ∀ (st : MState) (bn tn : Nat), stepIter pf dec st bn tn ≠ .panic) := by
  constructor
  · intro hmal
    rw [stepIter_eq pf dec ⟨[], []⟩ 0 1 [] [] false rfl]
    simp only [Bool.false_eq_true, if_false, List.append_nil]
    cases hmal with
    | inl hm => simp [stepCore, parseFrames, hm]
    | inr hm => simp [stepCore, parseFrames, hm]
  · intro hwf hnis hno st bn tn hpanic
    rcases hrt : readTake bn st.reader with ⟨bs, p⟩
    rcases p with ⟨r2, ioErr⟩
    rw [stepIter_eq pf dec st bn tn bs r2 ioErr hrt] at hpanic
    cases ioErr with
    | true => simp at hpanic
    | false =>
      simp only [Bool.false_eq_true, if_false] at hpanic
      cases hres : parseFrames pf tn (st.buffer ++ bs) [] 0 0 true with
      | incomplete hh =>
        rw [stepCore_incomplete pf dec _ r2 tn hh hres] at hpanic
        simp at hpanic
      | done tgs t1 tl =>
        cases hdec : dec tgs with
        | ok a =>
          rw [stepCore_decrypt_ok pf dec _ r2 tn tgs t1 tl a hres hdec] at hpanic
          simp at hpanic
        | error derr =>
          cases derr with
          | incomplete hh =>
            rw [stepCore_decrypt_incomplete pf dec _ r2 tn tgs t1 tl hh
              hres hdec] at hpanic
            simp at hpanic
          | invalidFormat =>
            rw [stepCore_decrypt_soft pf dec _ r2 tn tgs t1 tl hres
              (Or.inl hdec)] at hpanic
            simp at hpanic
          | checksumMismatch =>
            rw [stepCore_decrypt_soft pf dec _ r2 tn tgs t1 tl hres
              (Or.inr hdec)] at hpanic
            simp at hpanic
          | decryptionFailed =>
            rw [stepCore_decrypt_hard pf dec _ r2 tn tgs t1 tl hres hdec] at hpanic
            simp at hpanic
      | invalidStart =>
        obtain ⟨b2, hlen, hb2⟩ :=
          parseFrames_malformed pf hwf tn _ [] 0 0 true (Or.inl hres)
        have hb2ne : b2 ≠ [] := by
          intro hb2e
          cases hb2 with
          | inl h2 => exact hnis (hb2e ▸ h2)
          | inr h2 => exact hno (hb2e ▸ h2)
        cases hBB : st.buffer ++ bs with
        | nil =>
          rw [hBB] at hlen
          simp at hlen
          exact hb2ne hlen
        | cons b rest =>
          rw [hBB] at hres hpanic
          rw [stepCore_malformed pf dec b rest r2 tn (Or.inl hres)] at hpanic
          simp at hpanic
      | other =>
        obtain ⟨b2, hlen, hb2⟩ :=
          parseFrames_malformed pf hwf tn _ [] 0 0 true (Or.inr hres)
        have hb2ne : b2 ≠ [] := by
          intro hb2e
          cases hb2 with
          | inl h2 => exact hnis (hb2e ▸ h2)
          | inr h2 => exact hno (hb2e ▸ h2)
        cases hBB : st.buffer ++ bs with
        | nil =>
          rw [hBB] at hlen
          simp at hlen
          exact hb2ne hlen
        | cons b rest =>
          rw [hBB] at hres hpanic
          rw [stepCore_malformed pf dec b rest r2 tn (Or.inr hres)] at hpanic
          simp at hpanic

/-- Witness for C9: a parser that rejects the empty slice panics from the
empty state; a parser that reports `Incomplete` on the empty slice never
reaches the panic branch there. -/
theorem c9_witness :
    stepIter pfBad decHard ⟨[], []⟩ 0 1 = .panic ∧
    stepIter pf2 decOk ⟨[], []⟩ 0 1 ≠ .panic := by
  constructor
  · exact (c9_remove_safety pfBad decHard).1 (Or.inl rfl)
  · exact (c9_remove_safety pf2 decOk).2 pf2_wf (by simp [pf2]) (by simp [pf2])
      ⟨[], []⟩ 0 1

/-- Claim C10: when `parse_next` returns the hard decryption failure, the
buffer is left exactly as it was at the failed decryption attempt — no bytes
drained and no byte dropped; `bytes_needed` and `frames_needed` are locals
reinitialised to `(0, 1)` on every call, so a subsequent call reads nothing
new (its initial read is of zero bytes) and re-attempts parsing and
decryption over the same leading bytes of the unchanged buffer. -/
theorem c10_hard_failure_state (pf : FrameParser F) (dec : Decryptor F A)
    (st : MState) (bn tn : Nat) (bs : List Byte) (r2 : Reader)
    (tgs : List F) (t1 tl : Nat)
    (hr : readTake bn st.reader = (bs, r2, false))
    (hp : parseFrames pf tn (st.buffer ++ bs) [] 0 0 true = .done tgs t1 tl)
    (hd : dec tgs = .error .decryptionFailed) :
    stepIter pf dec st bn tn =
      .emit ⟨st.buffer ++ bs, r2⟩ (.error .decryptionFailed) ∧
    (∀ (fuel : Nat) (s : MState),
      parseNext pf dec fuel s = run pf dec fuel s 0 1) ∧
    readTake 0 r2 = ([], r2, false) ∧
    stepIter pf dec ⟨st.buffer ++ bs, r2⟩ 0 1 =
      stepCore pf dec (st.buffer ++ bs) r2 1 := by
  refine ⟨?_, fun fuel s => rfl, readTake_zero r2, ?_⟩
  · rw [stepIter_eq pf dec st bn tn bs r2 false hr]
    simp only [Bool.false_eq_true, if_false]
    exact stepCore_decrypt_hard pf dec _ r2 tn tgs t1 tl hp hd
  · rw [stepIter_eq pf dec ⟨st.buffer ++ bs, r2⟩ 0 1 [] r2 false rfl]
    simp

/-- Witness for C10: a one-byte frame and a hard decryption failure; the
byte stays in the buffer and the next call re-attempts over it. -/
theorem c10_witness :
    stepIter pf1 decHard ⟨[0], []⟩ 0 1 =
      .emit ⟨[0], []⟩ (.error Error.decryptionFailed) ∧
    readTake 0 [] = ([], [], false) ∧
    stepIter pf1 decHard ⟨[0], []⟩ 0 1 = stepCore pf1 decHard [0] [] 1 := by
  have h := c10_hard_failure_state pf1 decHard ⟨[0], []⟩ 0 1 [] [] [0] 1 1
    rfl rfl rfl
  exact ⟨h.1, h.2.2.1, h.2.2.2⟩

/-- Claim C1 is refuted: with a parser that frames single bytes and a
decryptor that always reports a hard failure, the state `⟨[0], []⟩` makes
`parse_next` return the hard failure while leaving the state unchanged at
`⟨[0], []⟩`; the subsequent `next()` is therefore this very same
computation and again returns an item (second conjunct), so the iterator
does not stop yielding after the hard failure. -/
theorem c1_counterexample :
    parseNext pf1 decHard 1 ⟨[0], []⟩ =
      RunResult.emit ⟨[0], []⟩ (.error Error.decryptionFailed) ∧
    (parseNext pf1 decHard 1 ⟨[0], []⟩).isEmit = true :=
  ⟨rfl, rfl⟩

/-- Claim C1 (amended): a hard decryption failure is emitted with the
machine state (buffer and reader) exactly as at the failed attempt, and the
iterator is not terminated: the next call restarts with
`(bytes_needed, frames_needed) = (0, 1)` on the same state, and when the
fresh single-frame attempt reaches the same hard failure that next call
emits the hard failure again — a further item — rather than ending the
sequence. -/
theorem c1_hard_failure_not_terminal (pf : FrameParser F) (dec : Decryptor F A)
    (st : MState) (bn tn : Nat) (bs : List Byte) (r2 : Reader)
    (tgs : List F) (t1 tl : Nat)
    (hr : readTake bn st.reader = (bs, r2, false))
    (hp : parseFrames pf tn (st.buffer ++ bs) [] 0 0 true = .done tgs t1 tl)
    (hd : dec tgs = .error .decryptionFailed) :
    stepIter pf dec st bn tn =
      .emit ⟨st.buffer ++ bs, r2⟩ (.error .decryptionFailed) ∧
    (∀ (tgs2 : List F) (t1b tlb fuel : Nat),
      parseFrames pf 1 (st.buffer ++ bs) [] 0 0 true = .done tgs2 t1b tlb →
      dec tgs2 = .error .decryptionFailed →
      parseNext pf dec (fuel + 1) ⟨st.buffer ++ bs, r2⟩ =
        .emit ⟨st.buffer ++ bs, r2⟩ (.error .decryptionFailed)) := by
  constructor
  · rw [stepIter_eq pf dec st bn tn bs r2 false hr]
    simp only [Bool.false_eq_true, if_false]
    exact stepCore_decrypt_hard pf dec _ r2 tn tgs t1 tl hp hd
  · intro tgs2 t1b tlb fuel hp2 hd2
    have s1 : stepIter pf dec ⟨st.buffer ++ bs, r2⟩ 0 1 =
        .emit ⟨st.buffer ++ bs, r2⟩ (.error .decryptionFailed) := by
      rw [stepIter_eq pf dec ⟨st.buffer ++ bs, r2⟩ 0 1 [] r2 false rfl]
      simp only [Bool.false_eq_true, if_false, List.append_nil]
      exact stepCore_decrypt_hard pf dec _ r2 1 tgs2 t1b tlb hp2 hd2
    show run pf dec (fuel + 1) ⟨st.buffer ++ bs, r2⟩ 0 1 = _
    simp [run, s1]

/-- Witness for the amended C1: the concrete hard-failure state emits the
error and the subsequent call emits it again. -/
theorem c1_witness :
    stepIter pf1 decHard ⟨[0], []⟩ 0 1 =
      .emit ⟨[0], []⟩ (.error Error.decryptionFailed) ∧
    parseNext pf1 decHard 1 ⟨[0], []⟩ =
      .emit ⟨[0], []⟩ (.error Error.decryptionFailed) := by
  have h := c1_hard_failure_not_terminal pf1 decHard ⟨[0], []⟩ 0 1 [] [] [0] 1 1
    rfl rfl rfl
  exact ⟨h.1, h.2 [0] 1 1 0 rfl rfl⟩

end SmartMeter
